import Mathlib

/-!
Shallow embedding of `src/Script/extract_dominant_frequencies.py`.

Audio samples are embedded as exact rationals (`ℚ`), standing for the
script's floating-point sample values; the Fourier-analysis estimators go
through `ℝ`/`ℂ`.  Operations that can raise a Python exception are
embedded with `Option`, `none` standing for a raised exception; the four
estimators therefore have type `List ℚ → ℚ → Option ℚ`.
-/

/-- `np.mean`: sum divided by length (the empty case sits behind the
`len < 2` guards in every caller). -/
def npMean (l : List ℚ) : ℚ := l.sum / l.length

/-- `chunk - np.mean(chunk)`: the DC-removed chunk. -/
def centered (chunk : List ℚ) : List ℚ := chunk.map (fun x => x - npMean chunk)

/-- `np.sign` on one value. -/
def npSign (x : ℚ) : ℚ := if 0 < x then 1 else if x < 0 then -1 else 0

/-- `np.diff`: consecutive differences, `out[i] = l[i+1] - l[i]`. -/
def npDiff (l : List ℚ) : List ℚ := List.zipWith (fun a b => b - a) l l.tail

/-- `np.argmax`: index of the first occurrence of the maximum; `none` embeds
the `ValueError` numpy raises on an empty array. -/
def npArgmax? {α : Type} [LinearOrder α] : List α → Option ℕ
  | [] => none
  | x :: t =>
    match npArgmax? t with
    | none => some 0
    | some k => if x < t.getD k x then some (k + 1) else some 0

/-- `np.where(l > 0)[0]` followed by taking the first entry when it exists:
the first index holding a positive value. -/
def npFirstPos? : List ℚ → Option ℕ
  | [] => none
  | x :: t => if 0 < x then some 0 else (npFirstPos? t).map (fun i => i + 1)

/-- `np.where(np.diff(np.sign(chunk)))[0]`: the indices where the sign of
consecutive samples differs. -/
def zeroCrossings (chunk : List ℚ) : List ℕ :=
  let d := npDiff (chunk.map npSign)
  (List.range d.length).filter (fun i => d.getD i 0 ≠ 0)

/-- `np.mean(np.diff(zero_crossings))`: the mean spacing (in samples) between
consecutive zero crossings. -/
def avgPeriod (chunk : List ℚ) : ℚ :=
  npMean (npDiff ((zeroCrossings chunk).map (fun n : ℕ => (n : ℚ))))

/-- `dominant_frequency_zcr` from the script. -/
def dominant_frequency_zcr (chunk : List ℚ) (sr : ℚ) : Option ℚ :=
  if chunk.length < 2 then some 0
  else
    let zc := zeroCrossings chunk
    if zc.length < 2 then some 0
    else
      let avg := avgPeriod chunk
      if avg = 0 then some 0 else some (sr / avg)

/-- The chunking loop of `extract_dominant_frequencies`:
`for start in range(0, num_samples, samples_per_group)` with
`chunk = audio_data[start:min(start+samples_per_group, num_samples)]`.
(`W = 0` would make Python's `range` raise; it is rejected by `main`'s
validation before this loop can run, and is mapped to `[]` here.) -/
def chunks {α : Type} (W : ℕ) (xs : List α) : List (List α) :=
  if W = 0 then []
  else
    match xs with
    | [] => []
    | x :: rest => (x :: rest).take W :: chunks W ((x :: rest).drop W)
termination_by xs.length
decreasing_by
  rename_i hW
  simp only [List.length_drop, List.length_cons]
  exact Nat.sub_lt (Nat.succ_pos _) (Nat.pos_of_ne_zero hW)

theorem chunks_nil {α : Type} (W : ℕ) : chunks W ([] : List α) = [] := by
  rw [chunks]; split <;> rfl

theorem chunks_cons {α : Type} (W : ℕ) (xs : List α) (hW : W ≠ 0) (hxs : xs ≠ []) :
    chunks W xs = xs.take W :: chunks W (xs.drop W) := by
  match xs with
  | [] => exact absurd rfl hxs
  | x :: rest => rw [chunks, if_neg hW]

/-- Fuel-style induction principle matching the recursion of `chunks`. -/
theorem chunks_induction {α : Type} (W : ℕ) (hW : W ≠ 0) (P : List α → Prop)
    (h0 : P []) (h1 : ∀ xs : List α, xs ≠ [] → P (xs.drop W) → P xs) :
    ∀ xs : List α, P xs := by
  have key : ∀ (n : ℕ) (xs : List α), xs.length ≤ n → P xs := by
    intro n
    induction n with
    | zero =>
      intro xs h
      rw [Nat.le_zero] at h
      rw [List.eq_nil_of_length_eq_zero h]
      exact h0
    | succ n ih =>
      intro xs h
      rcases List.eq_nil_or_concat xs with rfl | _
      · exact h0
      · have hxs : xs ≠ [] := by rintro rfl; simp_all
        refine h1 xs hxs (ih _ ?_)
        have hlen : 1 ≤ xs.length := List.length_pos.mpr hxs
        have hW1 : 1 ≤ W := Nat.pos_of_ne_zero hW
        simp only [List.length_drop]
        omega
  exact fun xs => key xs.length xs le_rfl

theorem chunks_flatten {α : Type} (W : ℕ) (hW : W ≠ 0) (xs : List α) :
    (chunks W xs).flatten = xs := by
  induction xs using chunks_induction W hW with
  | h0 => rw [chunks_nil]; rfl
  | h1 xs hxs ih =>
    rw [chunks_cons W xs hW hxs, List.flatten_cons, ih, List.take_append_drop]

theorem chunks_length_eq_ceil {α : Type} (W : ℕ) (hW : W ≠ 0) (xs : List α) :
    (chunks W xs).length = (xs.length + W - 1) / W := by
  induction xs using chunks_induction W hW with
  | h0 =>
    rw [chunks_nil]
    have h1 : ([] : List α).length + W - 1 < W := by simp; omega
    rw [Nat.div_eq_of_lt h1]
    rfl
  | h1 xs hxs ih =>
    rw [chunks_cons W xs hW, List.length_cons, ih, List.length_drop]
    · have hlen : 1 ≤ xs.length := List.length_pos.mpr hxs
      have hWpos : 0 < W := Nat.pos_of_ne_zero hW
      have h2 : xs.length + W - 1 = (xs.length - 1) + W := by omega
      rw [h2, Nat.add_div_right _ hWpos]
      rcases le_or_lt W xs.length with hle | hlt
      · have h3 : xs.length - W + W - 1 = xs.length - 1 := by omega
        rw [h3]
      · have h3 : xs.length - W = 0 := by omega
        have h4 : xs.length - 1 < W := by omega
        have h5 : (0 : ℕ) + W - 1 < W := by omega
        rw [h3, Nat.div_eq_of_lt h4, Nat.div_eq_of_lt h5]
    · exact hxs

theorem chunks_mem_length {α : Type} (W : ℕ) (hW : W ≠ 0) (xs : List α) :
    ∀ c ∈ chunks W xs, c.length ≤ W ∧ c ≠ [] := by
  induction xs using chunks_induction W hW with
  | h0 => rw [chunks_nil]; intro c hc; cases hc
  | h1 xs hxs ih =>
    rw [chunks_cons W xs hW hxs]
    intro c hc
    rcases List.mem_cons.mp hc with rfl | hc
    · constructor
      · simp [List.length_take]
      · rw [Ne, List.take_eq_nil_iff]
        push_neg
        exact ⟨hW, hxs⟩
    · exact ih c hc

theorem chunks_not_last_length {α : Type} (W : ℕ) (hW : W ≠ 0) (xs : List α) :
    ∀ i, i + 1 < (chunks W xs).length → ((chunks W xs).getD i []).length = W := by
  induction xs using chunks_induction W hW with
  | h0 => rw [chunks_nil]; intro i hi; simp at hi
  | h1 xs hxs ih =>
    rw [chunks_cons W xs hW hxs]
    intro i hi
    match i with
    | 0 =>
      simp only [List.length_cons] at hi
      have hrest : chunks W (xs.drop W) ≠ [] := by
        intro hnil
        rw [hnil] at hi
        simp at hi
      have hdrop : xs.drop W ≠ [] := by
        intro hnil
        rw [hnil, chunks_nil] at hrest
        exact hrest rfl
      have hlen : W < xs.length := by
        by_contra hle
        exact hdrop (List.drop_eq_nil_iff.mpr (by omega))
      simp only [List.getD_cons_zero, List.length_take]
      omega
    | i + 1 =>
      simp only [List.length_cons, Nat.add_lt_add_iff_right] at hi
      simp only [List.getD_cons_succ]
      exact ih i (by omega)

/-- C4: for window size `W ≥ 2` the segmentation yields `ceil(N/W)` chunks,
their concatenation reconstructs the signal, every chunk is non-empty of
length at most `W`, and every chunk except possibly the last has length
exactly `W`. -/
theorem claim_C4_segmentation (xs : List ℚ) (W : ℕ) (hW : 2 ≤ W) :
    (chunks W xs).length = (xs.length + W - 1) / W ∧
    (chunks W xs).flatten = xs ∧
    (∀ c ∈ chunks W xs, c.length ≤ W ∧ c ≠ []) ∧
    (∀ i, i + 1 < (chunks W xs).length → ((chunks W xs).getD i []).length = W) := by
  have hW0 : W ≠ 0 := by omega
  exact ⟨chunks_length_eq_ceil W hW0 xs, chunks_flatten W hW0 xs,
    chunks_mem_length W hW0 xs, chunks_not_last_length W hW0 xs⟩

/-- C4 witness: the segmentation contract evaluated on a concrete signal. -/
theorem claim_C4_segmentation_witness :
    (chunks 2 [(1 : ℚ), 2, 3, 4, 5]).length = (5 + 2 - 1) / 2 ∧
    (chunks 2 [(1 : ℚ), 2, 3, 4, 5]).flatten = [1, 2, 3, 4, 5] ∧
    (∀ c ∈ chunks 2 [(1 : ℚ), 2, 3, 4, 5], c.length ≤ 2 ∧ c ≠ []) ∧
    (∀ i, i + 1 < (chunks 2 [(1 : ℚ), 2, 3, 4, 5]).length →
      ((chunks 2 [(1 : ℚ), 2, 3, 4, 5]).getD i []).length = 2) :=
  claim_C4_segmentation [1, 2, 3, 4, 5] 2 (by norm_num)

theorem zeroCrossings_pairwise (chunk : List ℚ) :
    (zeroCrossings chunk).Pairwise (· < ·) := by
  unfold zeroCrossings
  exact (List.pairwise_lt_range _).sublist (List.filter_sublist _)

theorem length_le_sum_of_one_le (l : List ℚ) (h : ∀ x ∈ l, 1 ≤ x) :
    (l.length : ℚ) ≤ l.sum := by
  induction l with
  | nil => simp
  | cons x t ih =>
    have hx : 1 ≤ x := h x (List.mem_cons_self x t)
    have ht : (t.length : ℚ) ≤ t.sum := ih (fun y hy => h y (List.mem_cons_of_mem x hy))
    simp only [List.length_cons, List.sum_cons]
    push_cast
    linarith

theorem npDiff_length (l : List ℚ) : (npDiff l).length = l.length - 1 := by
  unfold npDiff
  rw [List.length_zipWith, List.length_tail]
  omega

theorem npDiff_cons₂ (x y : ℚ) (t : List ℚ) :
    npDiff (x :: y :: t) = (y - x) :: npDiff (y :: t) := rfl

theorem npDiff_cast_one_le (cr : List ℕ) (hpw : cr.Pairwise (· < ·)) :
    ∀ x ∈ npDiff (cr.map (fun n : ℕ => (n : ℚ))), 1 ≤ x := by
  induction cr with
  | nil => intro x hx; simp [npDiff] at hx
  | cons a t ih =>
    match t with
    | [] => intro x hx; simp [npDiff] at hx
    | b :: t2 =>
      intro x hx
      rw [List.map_cons, List.map_cons, npDiff_cons₂, ← List.map_cons] at hx
      rcases List.mem_cons.mp hx with rfl | hx2
      · have hab : a < b := (List.pairwise_cons.mp hpw).1 b (List.mem_cons_self b t2)
        have : (a : ℚ) + 1 ≤ (b : ℚ) := by exact_mod_cast hab
        linarith
      · exact ih (List.pairwise_cons.mp hpw).2 x hx2

theorem avgPeriod_ge_one (chunk : List ℚ) (h : 2 ≤ (zeroCrossings chunk).length) :
    1 ≤ avgPeriod chunk := by
  have hone := npDiff_cast_one_le (zeroCrossings chunk) (zeroCrossings_pairwise chunk)
  have hdl : (npDiff ((zeroCrossings chunk).map (fun n : ℕ => (n : ℚ)))).length
      = (zeroCrossings chunk).length - 1 := by
    rw [npDiff_length, List.length_map]
  have hdpos : 1 ≤ (npDiff ((zeroCrossings chunk).map (fun n : ℕ => (n : ℚ)))).length := by
    omega
  have hsum := length_le_sum_of_one_le _ hone
  have hpos : (0 : ℚ) <
      ((npDiff ((zeroCrossings chunk).map (fun n : ℕ => (n : ℚ)))).length : ℚ) := by
    exact_mod_cast hdpos
  unfold avgPeriod npMean
  rw [one_le_div hpos]
  exact hsum

theorem zeroCrossings_length_le (chunk : List ℚ) :
    (zeroCrossings chunk).length ≤ chunk.length - 1 := by
  unfold zeroCrossings
  calc ((List.range (npDiff (chunk.map npSign)).length).filter _).length
      ≤ (List.range (npDiff (chunk.map npSign)).length).length :=
        List.length_filter_le _ _
    _ = (npDiff (chunk.map npSign)).length := List.length_range _
    _ = chunk.length - 1 := by rw [npDiff_length, List.length_map]

/-- C10: whenever at least two zero crossings are found, the crossing indices
are strictly increasing, so the mean spacing between consecutive crossings is
at least 1; the `avg_period == 0` branch is unreachable and the estimator
returns `samplerate / avg_period`. -/
theorem claim_C10_zcr_mean_spacing (chunk : List ℚ) (sr : ℚ)
    (h : 2 ≤ (zeroCrossings chunk).length) :
    1 ≤ avgPeriod chunk ∧ avgPeriod chunk ≠ 0 ∧
    dominant_frequency_zcr chunk sr = some (sr / avgPeriod chunk) := by
  have h1 : 1 ≤ avgPeriod chunk := avgPeriod_ge_one chunk h
  have h2 : avgPeriod chunk ≠ 0 := by intro h0; rw [h0] at h1; norm_num at h1
  refine ⟨h1, h2, ?_⟩
  have hlen : ¬ chunk.length < 2 := by
    have := zeroCrossings_length_le chunk
    omega
  unfold dominant_frequency_zcr
  rw [if_neg hlen, if_neg (by omega), if_neg h2]

/-- C10 witness: a chunk with two crossings, evaluated concretely. -/
theorem claim_C10_zcr_mean_spacing_witness :
    1 ≤ avgPeriod [(1 : ℚ), -1, 1] ∧ avgPeriod [(1 : ℚ), -1, 1] ≠ 0 ∧
    dominant_frequency_zcr [(1 : ℚ), -1, 1] 6 = some (6 / avgPeriod [(1 : ℚ), -1, 1]) :=
  claim_C10_zcr_mean_spacing [1, -1, 1] 6 (by norm_num [zeroCrossings, npDiff, npSign, List.range_succ])

/-- Indexing with an integer index, 0 outside bounds: the implicit
zero-padding in `np.correlate`. -/
def getZ (l : List ℚ) (i : ℤ) : ℚ :=
  if 0 ≤ i ∧ i < (l.length : ℤ) then l.getD i.toNat 0 else 0

/-- `np.correlate(a, v, mode='full')`:
`c[k] = sum_n a[n + k - (len(v)-1)] * v[n]`, for `k = 0 .. len(a)+len(v)-2`,
out-of-range accesses contributing 0. -/
def npCorrelateFull (a v : List ℚ) : List ℚ :=
  (List.range (a.length + v.length - 1)).map
    (fun k : ℕ => ∑ n ∈ Finset.range v.length,
      getZ a ((n : ℤ) + (k : ℤ) - ((v.length : ℤ) - 1)) * v.getD n 0)

/-- `dominant_frequency_autocorrelation` from the script. -/
def dominant_frequency_autocorrelation (chunk : List ℚ) (sr : ℚ) : Option ℚ :=
  if chunk.length < 2 then some 0
  else
    let c := centered chunk
    let full := npCorrelateFull c c
    let autocorr := full.drop (full.length / 2)
    let d := npDiff autocorr
    match npFirstPos? d with
    | none => some 0
    | some start =>
      match npArgmax? (autocorr.drop start) with
      | none => none
      | some p =>
        let peak := p + start
        if peak = 0 then some 0 else some (sr / (peak : ℚ))

/-- The autocorrelation of `c` with itself at non-negative lag `L`. -/
def acAt (c : List ℚ) (L : ℕ) : ℚ :=
  ∑ n ∈ Finset.range (c.length - L), c.getD n 0 * c.getD (n + L) 0

/-- Modelled from the spec: "the autocorrelation of the (DC-removed) chunk
with itself across all lags, keeping only the non-negative-lag half
(lag 0 first)". -/
def autocorrNonNeg (c : List ℚ) : List ℚ := (List.range c.length).map (acAt c)

/-- Modelled from the spec: the walk described for the Autocorrelation
estimator, performed on the non-negative-lag autocorrelation sequence. -/
def autocorrSpecWalk (chunk : List ℚ) (sr : ℚ) : ℚ :=
  let ac := autocorrNonNeg (centered chunk)
  match npFirstPos? (npDiff ac) with
  | none => 0
  | some start =>
    match npArgmax? (ac.drop start) with
    | none => 0
    | some p => if p + start = 0 then 0 else sr / ((p + start : ℕ) : ℚ)

theorem getZ_natCast (l : List ℚ) (m : ℕ) :
    getZ l (m : ℤ) = if m < l.length then l.getD m 0 else 0 := by
  unfold getZ
  rcases lt_or_le m l.length with hlt | hle
  · rw [if_pos ⟨Int.natCast_nonneg m, by exact_mod_cast hlt⟩, if_pos hlt, Int.toNat_natCast]
  · rw [if_neg, if_neg (by omega)]
    push_neg
    intro _
    exact_mod_cast hle

theorem centered_length (chunk : List ℚ) : (centered chunk).length = chunk.length := by
  unfold centered
  exact List.length_map chunk _

theorem npCorrelateFull_length (a v : List ℚ) :
    (npCorrelateFull a v).length = a.length + v.length - 1 := by
  unfold npCorrelateFull
  rw [List.length_map, List.length_range]

/-- Dropping the first half of the full (symmetric-around-lag-0)
autocorrelation leaves exactly the non-negative-lag autocorrelation,
lag 0 first. -/
theorem npCorrelateFull_drop_half (c : List ℚ) (hc : 1 ≤ c.length) :
    (npCorrelateFull c c).drop ((npCorrelateFull c c).length / 2) =
      autocorrNonNeg c := by
  set N := c.length with hN
  have hlen : (npCorrelateFull c c).length = 2 * N - 1 := by
    rw [npCorrelateFull_length]
    omega
  have hhalf : (npCorrelateFull c c).length / 2 = N - 1 := by
    rw [hlen]
    omega
  rw [hhalf]
  unfold npCorrelateFull autocorrNonNeg
  rw [← List.map_drop]
  have hsplit : N + N - 1 = (N - 1) + N := by omega
  rw [← hN, hsplit, List.range_add]
  rw [List.drop_left' (by rw [List.length_range])]
  rw [List.map_map]
  apply List.map_congr_left
  intro i hi
  rw [List.mem_range] at hi
  simp only [Function.comp]
  have hidx : ∀ n : ℕ, ((n : ℤ) + ((N - 1 + i : ℕ) : ℤ) - ((N : ℤ) - 1)) = ((n + i : ℕ) : ℤ) := by
    intro n
    push_cast [Nat.cast_sub hc]
    ring
  calc (∑ n ∈ Finset.range N,
        getZ c ((n : ℤ) + ((N - 1 + i : ℕ) : ℤ) - ((N : ℤ) - 1)) * c.getD n 0)
      = ∑ n ∈ Finset.range N,
        (if n + i < N then c.getD (n + i) 0 else 0) * c.getD n 0 := by
        apply Finset.sum_congr rfl
        intro n _
        rw [hidx n, getZ_natCast]
    _ = ∑ n ∈ Finset.range (N - i), c.getD n 0 * c.getD (n + i) 0 := by
        rw [← Finset.sum_subset
          (Finset.range_subset.mpr (Nat.sub_le N i) : Finset.range (N - i) ⊆ Finset.range N)]
        · apply Finset.sum_congr rfl
          intro n hn
          rw [Finset.mem_range] at hn
          rw [if_pos (by omega), mul_comm]
        · intro n hn hn2
          rw [Finset.mem_range] at hn
          rw [Finset.mem_range] at hn2
          rw [if_neg (by omega), zero_mul]
    _ = acAt c i := rfl

theorem npFirstPos?_lt_length (l : List ℚ) (i : ℕ) (h : npFirstPos? l = some i) :
    i < l.length := by
  induction l generalizing i with
  | nil => simp [npFirstPos?] at h
  | cons x t ih =>
    rw [npFirstPos?] at h
    split at h
    · cases h
      simp
    · rcases Option.map_eq_some'.mp h with ⟨j, hj, rfl⟩
      have := ih j hj
      simp
      omega

theorem npArgmax?_isSome {α : Type} [LinearOrder α] (l : List α) (h : l ≠ []) :
    ∃ k, npArgmax? l = some k := by
  match l with
  | [] => exact absurd rfl h
  | x :: t =>
    cases ht : npArgmax? t with
    | none => exact ⟨0, by simp only [npArgmax?, ht]⟩
    | some k =>
      by_cases hx : x < t.getD k x
      · exact ⟨k + 1, by simp only [npArgmax?, ht, if_pos hx]⟩
      · exact ⟨0, by simp only [npArgmax?, ht, if_neg hx]⟩

/-- C8: for every chunk of length at least 2, the autocorrelation estimator
computes exactly the walk the spec describes on the non-negative-lag half of
the autocorrelation of the mean-subtracted chunk (and never raises). -/
theorem claim_C8_autocorrelation (chunk : List ℚ) (sr : ℚ) (h : 2 ≤ chunk.length) :
    dominant_frequency_autocorrelation chunk sr = some (autocorrSpecWalk chunk sr) := by
  have hc : 1 ≤ (centered chunk).length := by rw [centered_length]; omega
  unfold dominant_frequency_autocorrelation autocorrSpecWalk
  rw [if_neg (by omega)]
  dsimp only
  rw [npCorrelateFull_drop_half (centered chunk) hc]
  cases hfp : npFirstPos? (npDiff (autocorrNonNeg (centered chunk))) with
  | none => rfl
  | some start =>
    have hstart : start < (npDiff (autocorrNonNeg (centered chunk))).length :=
      npFirstPos?_lt_length _ start hfp
    have hne : (autocorrNonNeg (centered chunk)).drop start ≠ [] := by
      rw [npDiff_length] at hstart
      rw [Ne, List.drop_eq_nil_iff]
      omega
    rcases npArgmax?_isSome _ hne with ⟨p, hp⟩
    simp only [hp]
    by_cases hpk : p + start = 0
    · rw [if_pos hpk, if_pos hpk]
    · rw [if_neg hpk, if_neg hpk]

/-- C8 witness: a concrete chunk of length 2. -/
theorem claim_C8_autocorrelation_witness :
    dominant_frequency_autocorrelation [(1 : ℚ), 0] 4 = some (autocorrSpecWalk [(1 : ℚ), 0] 4) :=
  claim_C8_autocorrelation [1, 0] 4 (by norm_num)


theorem getD_default_irrel {α : Type} (l : List α) (k : ℕ) (h : k < l.length) (d1 d2 : α) :
    l.getD k d1 = l.getD k d2 := by
  rw [List.getD_eq_getElem l d1 h, List.getD_eq_getElem l d2 h]

theorem npArgmax?_cons_none {α : Type} [LinearOrder α] (x : α) (t : List α)
    (h : npArgmax? t = none) : npArgmax? (x :: t) = some 0 := by
  rw [npArgmax?, h]

theorem npArgmax?_cons_some {α : Type} [LinearOrder α] (x : α) (t : List α) (k : ℕ)
    (h : npArgmax? t = some k) :
    npArgmax? (x :: t) = if x < t.getD k x then some (k + 1) else some 0 := by
  rw [npArgmax?, h]

/-- `np.argmax` returns the index of the maximum value, and on ties the
lowest such index: every entry is at most the returned one, and every entry
before it is strictly below it. -/
theorem npArgmax?_spec {α : Type} [LinearOrder α] (d : α) (l : List α) (h : l ≠ []) :
    ∃ k : ℕ, npArgmax? l = some k ∧ k < l.length ∧
      (∀ j : ℕ, j < l.length → l.getD j d ≤ l.getD k d) ∧
      (∀ j : ℕ, j < k → l.getD j d < l.getD k d) := by
  induction l with
  | nil => exact absurd rfl h
  | cons x t ih =>
    match t with
    | [] =>
      refine ⟨0, npArgmax?_cons_none x [] rfl, by simp, ?_, ?_⟩
      · intro j hj
        simp only [List.length_cons, List.length_nil] at hj
        match j with
        | 0 => exact le_refl _
        | j + 1 => omega
      · intro j hj
        omega
    | y :: t2 =>
      obtain ⟨k, hk, hklen, hmax, hfirst⟩ := ih (by simp)
      simp only [List.length_cons] at hklen
      have hgetd : (y :: t2).getD k x = (y :: t2).getD k d :=
        getD_default_irrel _ k (by simp only [List.length_cons]; omega) x d
      by_cases hx : x < (y :: t2).getD k x
      · refine ⟨k + 1, by rw [npArgmax?_cons_some x _ k hk, if_pos hx], ?_, ?_, ?_⟩
        · simp only [List.length_cons]
          omega
        · intro j hj
          simp only [List.length_cons] at hj
          match j with
          | 0 =>
            rw [List.getD_cons_zero, List.getD_cons_succ]
            rw [hgetd] at hx
            exact le_of_lt hx
          | j + 1 =>
            rw [List.getD_cons_succ, List.getD_cons_succ]
            apply hmax
            simp only [List.length_cons]
            omega
        · intro j hj
          match j with
          | 0 =>
            rw [List.getD_cons_zero, List.getD_cons_succ]
            rw [hgetd] at hx
            exact hx
          | j + 1 =>
            rw [List.getD_cons_succ, List.getD_cons_succ]
            exact hfirst j (by omega)
      · refine ⟨0, by rw [npArgmax?_cons_some x _ k hk, if_neg hx], by simp, ?_, ?_⟩
        · intro j hj
          rw [hgetd] at hx
          push_neg at hx
          simp only [List.length_cons] at hj
          match j with
          | 0 => exact le_refl _
          | j + 1 =>
            rw [List.getD_cons_zero, List.getD_cons_succ]
            calc (y :: t2).getD j d ≤ (y :: t2).getD k d := by
                  apply hmax
                  simp only [List.length_cons]
                  omega
              _ ≤ x := hx
        · intro j hj
          omega

/-- `X_k` of `np.fft.fft` (and of `np.fft.rfft` for `k ≤ n//2`):
`X_k = sum_n x_n * exp(-2*pi*i*k*n/N)`. -/
noncomputable def dftAt (x : List ℚ) (k : ℕ) : ℂ :=
  ∑ n ∈ Finset.range x.length,
    ((x.getD n 0 : ℚ) : ℂ) *
      Complex.exp (-2 * (Real.pi : ℂ) * Complex.I * (k : ℂ) * (n : ℂ) / (x.length : ℂ))

/-- `np.abs(np.fft.rfft(x))`: the magnitudes of the one-sided spectrum,
bins `k = 0 .. n//2`. -/
noncomputable def rfftMags (x : List ℚ) : List ℝ :=
  (List.range (x.length / 2 + 1)).map (fun k : ℕ => Complex.abs (dftAt x k))

/-- `dominant_frequency_fft` from the script; `np.fft.rfftfreq(n, d=1/sr)`
has `freqs[k] = k*sr/n`, so the returned value is `peak*sr/len(chunk)`. -/
noncomputable def dominant_frequency_fft (chunk : List ℚ) (sr : ℚ) : Option ℚ :=
  if chunk.length < 2 then some 0
  else
    match npArgmax? (rfftMags (centered chunk)) with
    | none => none
    | some peak => some ((peak : ℚ) * sr / (chunk.length : ℚ))

theorem rfftMags_length (x : List ℚ) : (rfftMags x).length = x.length / 2 + 1 := by
  unfold rfftMags
  rw [List.length_map, List.length_range]

theorem rfftMags_getD (x : List ℚ) (j : ℕ) (hj : j < x.length / 2 + 1) :
    (rfftMags x).getD j 0 = Complex.abs (dftAt x j) := by
  unfold rfftMags
  rw [List.getD_eq_getElem _ 0 (by rw [List.length_map, List.length_range]; omega)]
  rw [List.getElem_map, List.getElem_range]

/-- C7: for chunks of length at least 2, the spectral-peak estimator returns
the frequency `k*sr/N` of a bin `k ≤ N/2` whose magnitude (of the DFT of the
mean-subtracted chunk) is maximal over the non-negative bins, and every
lower-index bin has strictly smaller magnitude (lowest index wins ties). -/
theorem claim_C7_spectral_peak (chunk : List ℚ) (sr : ℚ) (h : 2 ≤ chunk.length) :
    ∃ k : ℕ, dominant_frequency_fft chunk sr = some ((k : ℚ) * sr / (chunk.length : ℚ)) ∧
      k ≤ chunk.length / 2 ∧
      (∀ j : ℕ, j ≤ chunk.length / 2 →
        Complex.abs (dftAt (centered chunk) j) ≤ Complex.abs (dftAt (centered chunk) k)) ∧
      (∀ j : ℕ, j < k →
        Complex.abs (dftAt (centered chunk) j) < Complex.abs (dftAt (centered chunk) k)) := by
  have hlen : (rfftMags (centered chunk)).length = chunk.length / 2 + 1 := by
    rw [rfftMags_length, centered_length]
  have hne : rfftMags (centered chunk) ≠ [] := by
    intro hnil
    rw [hnil] at hlen
    simp at hlen
  obtain ⟨k, hk, hklen, hmax, hfirst⟩ := npArgmax?_spec (0 : ℝ) _ hne
  rw [hlen] at hklen
  refine ⟨k, ?_, by omega, ?_, ?_⟩
  · unfold dominant_frequency_fft
    rw [if_neg (by omega), hk]
  · intro j hj
    have hle := hmax j (by rw [hlen]; omega)
    rwa [rfftMags_getD _ j (by rw [centered_length]; omega),
      rfftMags_getD _ k (by rw [centered_length]; omega)] at hle
  · intro j hj
    have hlt := hfirst j hj
    rwa [rfftMags_getD _ j (by rw [centered_length]; omega),
      rfftMags_getD _ k (by rw [centered_length]; omega)] at hlt

/-- C7 witness: the spectral-peak contract at a concrete chunk. -/
theorem claim_C7_spectral_peak_witness :
    ∃ k : ℕ, dominant_frequency_fft [(1 : ℚ), -1] 7
        = some ((k : ℚ) * 7 / (([(1 : ℚ), -1].length : ℕ) : ℚ)) ∧
      k ≤ [(1 : ℚ), -1].length / 2 ∧
      (∀ j : ℕ, j ≤ [(1 : ℚ), -1].length / 2 →
        Complex.abs (dftAt (centered [(1 : ℚ), -1]) j)
          ≤ Complex.abs (dftAt (centered [(1 : ℚ), -1]) k)) ∧
      (∀ j : ℕ, j < k →
        Complex.abs (dftAt (centered [(1 : ℚ), -1]) j)
          < Complex.abs (dftAt (centered [(1 : ℚ), -1]) k)) :=
  claim_C7_spectral_peak [1, -1] 7 (by norm_num)

/-- Entry `n` of `np.fft.ifft(X)` for a real input list:
`(1/N) * sum_k X_k * exp(2*pi*i*k*n/N)`. -/
noncomputable def idftAt (X : List ℝ) (n : ℕ) : ℂ :=
  (∑ k ∈ Finset.range X.length,
    ((X.getD k 0 : ℝ) : ℂ) *
      Complex.exp (2 * (Real.pi : ℂ) * Complex.I * (k : ℂ) * (n : ℂ) / (X.length : ℂ)))
    / (X.length : ℂ)

/-- `np.fft.ifft(np.log(np.abs(np.fft.fft(c)) + 1e-10)).real`:
the (real part of the) cepstrum of the DC-removed chunk. -/
noncomputable def cepstrumList (c : List ℚ) : List ℝ :=
  let logSpectrum : List ℝ :=
    (List.range c.length).map (fun k : ℕ => Real.log (Complex.abs (dftAt c k) + 1 / 10 ^ 10))
  (List.range c.length).map (fun n : ℕ => (idftAt logSpectrum n).re)

/-- `dominant_frequency_cepstrum` from the script.  `int(samplerate / 1000)`
truncates toward zero, i.e. floors for the positive sample rates in scope. -/
noncomputable def dominant_frequency_cepstrum (chunk : List ℚ) (sr : ℚ) : Option ℚ :=
  if chunk.length < 2 then some 0
  else
    let cep := cepstrumList (centered chunk)
    let minQuefrency : ℕ := (⌊sr / 1000⌋).toNat
    match npArgmax? (cep.drop minQuefrency) with
    | none => none
    | some p =>
      let peak := p + minQuefrency
      if peak = 0 then some 0 else some (sr / (peak : ℚ))

theorem cepstrumList_length (c : List ℚ) : (cepstrumList c).length = c.length := by
  unfold cepstrumList
  dsimp only
  rw [List.length_map, List.length_range]

/-- C1 is violated by the code: on the final short chunk `[1, -1]` (length 2,
which passes the `len < 2` guard) at sample rate 44100, the cepstral
estimator slices away `int(44100/1000) = 44` leading cepstrum entries of a
2-entry cepstrum and then calls `np.argmax` on the empty remainder, which
raises `ValueError` (embedded as `none`) instead of returning an estimate. -/
theorem claim_C1_cepstrum_raises :
    dominant_frequency_cepstrum [(1 : ℚ), -1] 44100 = none := by
  unfold dominant_frequency_cepstrum
  rw [if_neg (by norm_num)]
  dsimp only
  have hmq : (⌊(44100 : ℚ) / 1000⌋).toNat = 44 := by
    have h : (⌊(44100 : ℚ) / 1000⌋) = 44 := by norm_num
    rw [h]
    rfl
  rw [hmq]
  have hdrop : (cepstrumList (centered [(1 : ℚ), -1])).drop 44 = [] := by
    rw [List.drop_eq_nil_iff, cepstrumList_length, centered_length]
    norm_num
  rw [hdrop]
  rfl

/-- C2 counterexample: the cepstral estimator does not return 0.0 on the
all-zero chunk `[0, 0]` at sample rate 1000 — it returns 1000.0.  (The
cepstrum has 2 entries, `int(1000/1000) = 1` is sliced away, the argmax of
the remaining single entry is 0, so `peak = 1` and `samplerate/peak = 1000`.) -/
theorem claim_C2_cepstrum_counterexample :
    dominant_frequency_cepstrum [(0 : ℚ), 0] 1000 = some 1000 ∧
      dominant_frequency_cepstrum [(0 : ℚ), 0] 1000 ≠ some 0 := by
  have hmain : dominant_frequency_cepstrum [(0 : ℚ), 0] 1000 = some 1000 := by
    unfold dominant_frequency_cepstrum
    rw [if_neg (by norm_num)]
    dsimp only
    have hmq : (⌊(1000 : ℚ) / 1000⌋).toNat = 1 := by
      have h : (⌊(1000 : ℚ) / 1000⌋) = 1 := by norm_num
      rw [h]
      rfl
    rw [hmq]
    have hcl : (cepstrumList (centered [(0 : ℚ), 0])).length = 2 := by
      rw [cepstrumList_length, centered_length]
      rfl
    obtain ⟨a, b, hab⟩ := List.length_eq_two.mp hcl
    rw [hab]
    have hdrop : List.drop 1 [a, b] = [b] := rfl
    rw [hdrop, npArgmax?_cons_none b [] rfl]
    norm_num
  refine ⟨hmain, ?_⟩
  rw [hmain]
  intro hcontra
  have : (1000 : ℚ) = 0 := Option.some_injective ℚ hcontra
  norm_num at this

theorem getD_replicate_self {α : Type} (m i : ℕ) (a : α) :
    (List.replicate m a).getD i a = a := by
  rcases lt_or_le i m with hlt | hle
  · rw [List.getD_eq_getElem _ a (by rw [List.length_replicate]; omega)]
    exact List.getElem_replicate a (by rw [List.length_replicate]; omega)
  · rw [List.getD_eq_default _ a (by rw [List.length_replicate]; omega)]

theorem npMean_replicate_zero (n : ℕ) : npMean (List.replicate n (0 : ℚ)) = 0 := by
  unfold npMean
  rw [List.sum_replicate, smul_zero, zero_div]

theorem centered_replicate_zero (n : ℕ) :
    centered (List.replicate n (0 : ℚ)) = List.replicate n 0 := by
  unfold centered
  rw [npMean_replicate_zero, List.map_replicate, sub_zero]

theorem npDiff_replicate_zero (m : ℕ) :
    npDiff (List.replicate m (0 : ℚ)) = List.replicate (m - 1) 0 := by
  unfold npDiff
  rw [List.tail_replicate, List.zipWith_replicate, sub_zero]
  congr 1
  omega

theorem npFirstPos?_replicate_zero (m : ℕ) :
    npFirstPos? (List.replicate m (0 : ℚ)) = none := by
  induction m with
  | zero => rfl
  | succ m ih =>
    rw [List.replicate_succ, npFirstPos?, if_neg (by norm_num), ih]
    rfl

theorem npArgmax?_replicate {α : Type} [LinearOrder α] (m : ℕ) (a : α) (h : 1 ≤ m) :
    npArgmax? (List.replicate m a) = some 0 := by
  induction m with
  | zero => omega
  | succ m ih =>
    match m with
    | 0 => exact npArgmax?_cons_none a [] rfl
    | m + 1 =>
      rw [List.replicate_succ, npArgmax?_cons_some a _ 0 (ih (by omega)),
        getD_replicate_self, if_neg (lt_irrefl a)]

theorem zeroCrossings_replicate_zero (n : ℕ) :
    zeroCrossings (List.replicate n (0 : ℚ)) = [] := by
  unfold zeroCrossings
  dsimp only
  rw [List.filter_eq_nil_iff]
  intro i hi
  have hsign : npSign (0 : ℚ) = 0 := by norm_num [npSign]
  rw [List.map_replicate, hsign, npDiff_replicate_zero] at hi ⊢
  have hgd : (List.replicate (n - 1) (0 : ℚ)).getD i 0 = 0 := getD_replicate_self _ i 0
  simp [hgd]

theorem dftAt_replicate_zero (n k : ℕ) : dftAt (List.replicate n (0 : ℚ)) k = 0 := by
  unfold dftAt
  apply Finset.sum_eq_zero
  intro j hj
  rw [getD_replicate_self]
  norm_num

theorem npCorrelateFull_replicate_zero (n : ℕ) :
    npCorrelateFull (List.replicate n (0 : ℚ)) (List.replicate n (0 : ℚ))
      = List.replicate (n + n - 1) 0 := by
  unfold npCorrelateFull
  have hmap : ∀ k : ℕ, (∑ j ∈ Finset.range (List.replicate n (0 : ℚ)).length,
      getZ (List.replicate n (0 : ℚ))
        ((j : ℤ) + (k : ℤ) - (((List.replicate n (0 : ℚ)).length : ℤ) - 1))
        * (List.replicate n (0 : ℚ)).getD j 0) = 0 := by
    intro k
    apply Finset.sum_eq_zero
    intro j hj
    rw [getD_replicate_self, mul_zero]
  calc (List.range ((List.replicate n (0 : ℚ)).length + (List.replicate n (0 : ℚ)).length - 1)).map
        (fun k : ℕ => ∑ j ∈ Finset.range (List.replicate n (0 : ℚ)).length,
          getZ (List.replicate n (0 : ℚ))
            ((j : ℤ) + (k : ℤ) - (((List.replicate n (0 : ℚ)).length : ℤ) - 1))
            * (List.replicate n (0 : ℚ)).getD j 0)
      = (List.range ((List.replicate n (0 : ℚ)).length + (List.replicate n (0 : ℚ)).length - 1)).map
        (fun _ : ℕ => (0 : ℚ)) := by
        apply List.map_congr_left
        intro k _
        exact hmap k
    _ = List.replicate (n + n - 1) 0 := by
        rw [List.map_const', List.length_range, List.length_replicate]

/-- C2 (amended): the spectral-peak, autocorrelation and zero-crossing
estimators all return 0.0 on an all-zero chunk of length at least 2, at any
sample rate.  (The cepstral estimator does not, see the counterexample.) -/
theorem claim_C2_zero_chunk_amended (n : ℕ) (sr : ℚ) (h : 2 ≤ n) :
    dominant_frequency_fft (List.replicate n 0) sr = some 0 ∧
    dominant_frequency_autocorrelation (List.replicate n 0) sr = some 0 ∧
    dominant_frequency_zcr (List.replicate n 0) sr = some 0 := by
  have hlen : (List.replicate n (0 : ℚ)).length = n := List.length_replicate n 0
  refine ⟨?_, ?_, ?_⟩
  · unfold dominant_frequency_fft
    rw [if_neg (by omega)]
    have hmags : rfftMags (centered (List.replicate n (0 : ℚ)))
        = List.replicate ((n / 2 + 1)) 0 := by
      unfold rfftMags
      rw [centered_replicate_zero]
      calc (List.range ((List.replicate n (0 : ℚ)).length / 2 + 1)).map
            (fun k : ℕ => Complex.abs (dftAt (List.replicate n (0 : ℚ)) k))
          = (List.range ((List.replicate n (0 : ℚ)).length / 2 + 1)).map
            (fun _ : ℕ => (0 : ℝ)) := by
            apply List.map_congr_left
            intro k _
            rw [dftAt_replicate_zero]
            exact map_zero Complex.abs
        _ = List.replicate (n / 2 + 1) 0 := by
            rw [List.map_const', List.length_range, hlen]
    rw [hmags, npArgmax?_replicate _ (0 : ℝ) (by omega)]
    rw [hlen]
    norm_num
  · unfold dominant_frequency_autocorrelation
    rw [if_neg (by omega)]
    dsimp only
    rw [centered_replicate_zero, npCorrelateFull_replicate_zero, List.drop_replicate,
      npDiff_replicate_zero, npFirstPos?_replicate_zero]
  · unfold dominant_frequency_zcr
    rw [if_neg (by omega)]
    dsimp only
    rw [zeroCrossings_replicate_zero, if_pos (by norm_num)]

/-- C2 (amended) witness: the three estimators on the concrete chunk `[0, 0]`. -/
theorem claim_C2_zero_chunk_amended_witness :
    dominant_frequency_fft (List.replicate 2 (0 : ℚ)) 5 = some 0 ∧
    dominant_frequency_autocorrelation (List.replicate 2 (0 : ℚ)) 5 = some 0 ∧
    dominant_frequency_zcr (List.replicate 2 (0 : ℚ)) 5 = some 0 :=
  claim_C2_zero_chunk_amended 2 5 (by norm_num)

/-- C6: all four estimators return 0.0 immediately on any chunk with fewer
than 2 samples, at any sample rate. -/
theorem claim_C6_short_chunk (chunk : List ℚ) (sr : ℚ) (h : chunk.length < 2) :
    dominant_frequency_fft chunk sr = some 0 ∧
    dominant_frequency_autocorrelation chunk sr = some 0 ∧
    dominant_frequency_zcr chunk sr = some 0 ∧
    dominant_frequency_cepstrum chunk sr = some 0 := by
  refine ⟨?_, ?_, ?_, ?_⟩
  · unfold dominant_frequency_fft
    rw [if_pos h]
  · unfold dominant_frequency_autocorrelation
    rw [if_pos h]
  · unfold dominant_frequency_zcr
    rw [if_pos h]
  · unfold dominant_frequency_cepstrum
    rw [if_pos h]

/-- C6 witness: the guard on the concrete one-sample chunk `[5]`. -/
theorem claim_C6_short_chunk_witness :
    dominant_frequency_fft [(5 : ℚ)] 3 = some 0 ∧
    dominant_frequency_autocorrelation [(5 : ℚ)] 3 = some 0 ∧
    dominant_frequency_zcr [(5 : ℚ)] 3 = some 0 ∧
    dominant_frequency_cepstrum [(5 : ℚ)] 3 = some 0 :=
  claim_C6_short_chunk [5] 3 (by norm_num)

/-- The `ALGORITHM_FUNCTIONS` dict of the script: keys are the recognized
algorithm names, values the estimator functions. -/
noncomputable def ALGORITHM_FUNCTIONS (name : String) : Option (List ℚ → ℚ → Option ℚ) :=
  if name = "fft" then some dominant_frequency_fft
  else if name = "autocorrelation" then some dominant_frequency_autocorrelation
  else if name = "zcr" then some dominant_frequency_zcr
  else if name = "cepstrum" then some dominant_frequency_cepstrum
  else none

/-- The per-chunk loop of `extract_dominant_frequencies`: skip empty chunks
(`continue`), apply the estimator, append; a raised exception (`none`)
propagates. -/
def extractLoop (func : List ℚ → ℚ → Option ℚ) (sr : ℚ) :
    List (List ℚ) → Option (List ℚ)
  | [] => some []
  | c :: rest =>
    if c.length = 0 then extractLoop func sr rest
    else
      match func c sr with
      | none => none
      | some v => (extractLoop func sr rest).map (fun r => v :: r)

/-- `extract_dominant_frequencies` from the script:
`func = ALGORITHM_FUNCTIONS.get(algorithm, dominant_frequency_fft)` followed
by the chunk loop. -/
noncomputable def extract_dominant_frequencies (audio : List ℚ) (sr : ℚ) (W : ℕ)
    (alg : String) : Option (List ℚ) :=
  extractLoop ((ALGORITHM_FUNCTIONS alg).getD dominant_frequency_fft) sr (chunks W audio)

/-- Plain sequential application of a fallible function, no empty-chunk
skipping: the reference shape for C5. -/
def mapOpt {α β : Type} (f : α → Option β) : List α → Option (List β)
  | [] => some []
  | a :: l =>
    match f a with
    | none => none
    | some b => (mapOpt f l).map (fun r => b :: r)

theorem extractLoop_eq_mapOpt (func : List ℚ → ℚ → Option ℚ) (sr : ℚ)
    (cs : List (List ℚ)) (h : ∀ c ∈ cs, c ≠ []) :
    extractLoop func sr cs = mapOpt (fun c => func c sr) cs := by
  induction cs with
  | nil => rfl
  | cons c rest ih =>
    have hc : c ≠ [] := h c (List.mem_cons_self c rest)
    have hlen : ¬ c.length = 0 := by
      intro h0
      exact hc (List.eq_nil_of_length_eq_zero h0)
    rw [extractLoop, if_neg hlen, mapOpt]
    rw [ih (fun d hd => h d (List.mem_cons_of_mem c hd))]
    cases func c sr <;> rfl

theorem mapOpt_spec {α β : Type} (f : α → Option β) (da : α) (db : β) :
    ∀ (l : List α) (res : List β), mapOpt f l = some res →
      res.length = l.length ∧
      ∀ i : ℕ, i < res.length → f (l.getD i da) = some (res.getD i db) := by
  intro l
  induction l with
  | nil =>
    intro res h
    rw [mapOpt] at h
    cases h
    exact ⟨rfl, fun i hi => by simp at hi⟩
  | cons a t ih =>
    intro res h
    rw [mapOpt] at h
    cases hfa : f a with
    | none => rw [hfa] at h; cases h
    | some b =>
      rw [hfa] at h
      rcases Option.map_eq_some'.mp h with ⟨r, hr, rfl⟩
      obtain ⟨hlen, hpt⟩ := ih r hr
      refine ⟨by simp [hlen], ?_⟩
      intro i hi
      match i with
      | 0 => rw [List.getD_cons_zero, List.getD_cons_zero]; exact hfa
      | i + 1 =>
        rw [List.getD_cons_succ, List.getD_cons_succ]
        apply hpt
        simp only [List.length_cons] at hi
        omega

/-- C5: for a recognized algorithm name and window size `W ≥ 2`, the
extraction applies the single selected estimator to each chunk in order
(every chunk is non-empty, so the `continue` branch never fires), and on
success the result has exactly one entry per chunk, the `i`-th entry being
the estimator applied to the `i`-th chunk. -/
theorem claim_C5_extraction_order (audio : List ℚ) (sr : ℚ) (W : ℕ) (alg : String)
    (f : List ℚ → ℚ → Option ℚ) (hW : 2 ≤ W) (hf : ALGORITHM_FUNCTIONS alg = some f) :
    extract_dominant_frequencies audio sr W alg
      = mapOpt (fun c => f c sr) (chunks W audio) ∧
    ∀ res, extract_dominant_frequencies audio sr W alg = some res →
      res.length = (chunks W audio).length ∧
      ∀ i : ℕ, i < res.length → f ((chunks W audio).getD i []) sr = some (res.getD i 0) := by
  have hmain : extract_dominant_frequencies audio sr W alg
      = mapOpt (fun c => f c sr) (chunks W audio) := by
    unfold extract_dominant_frequencies
    rw [hf, Option.getD_some]
    exact extractLoop_eq_mapOpt f sr (chunks W audio)
      (fun c hc => (chunks_mem_length W (by omega) audio c hc).2)
  refine ⟨hmain, ?_⟩
  intro res hres
  rw [hmain] at hres
  exact mapOpt_spec (fun c => f c sr) [] 0 (chunks W audio) res hres

/-- C5 witness: extraction with the `zcr` estimator over a concrete signal. -/
theorem claim_C5_extraction_order_witness :
    extract_dominant_frequencies [(1 : ℚ), -1, 1, -1] 4 2 "zcr"
      = mapOpt (fun c => dominant_frequency_zcr c 4) (chunks 2 [(1 : ℚ), -1, 1, -1]) ∧
    ∀ res, extract_dominant_frequencies [(1 : ℚ), -1, 1, -1] 4 2 "zcr" = some res →
      res.length = (chunks 2 [(1 : ℚ), -1, 1, -1]).length ∧
      ∀ i : ℕ, i < res.length →
        dominant_frequency_zcr ((chunks 2 [(1 : ℚ), -1, 1, -1]).getD i []) 4
          = some (res.getD i 0) :=
  claim_C5_extraction_order [1, -1, 1, -1] 4 2 "zcr" dominant_frequency_zcr
    (by norm_num) rfl

/-- Python's `str.lower()` on the configured name: lowercase every
character. -/
def strLower (s : String) : String := String.mk (s.data.map Char.toLower)

/-- The two fields of `settings.json` that `main` reads; `none` models an
absent key. -/
structure Settings where
  samples_per_group : Option ℤ
  algorithm : Option String

/-- `algorithm = settings.get('algorithm', 'fft').lower()` from `main`. -/
def cfgAlgorithm (alg : Option String) : String := strLower (alg.getD "fft")

/-- The pure part of `main`: read the settings with their defaults, validate
`samples_per_group >= 2` and the algorithm name (both fatal before any file
is touched), then run the extraction over every decoded file; an exception
escaping the extraction (`none`) crashes the program. -/
noncomputable def runMain (s : Settings) (files : List (List ℚ × ℚ)) :
    Except String (List (List ℚ)) :=
  let samples_per_group := s.samples_per_group.getD 1024
  let algorithm := cfgAlgorithm s.algorithm
  if samples_per_group < 2 then
    Except.error "'samples_per_group' must be at least 2"
  else if (ALGORITHM_FUNCTIONS algorithm).isNone then
    Except.error "Unknown algorithm"
  else
    match mapOpt
      (fun fa => extract_dominant_frequencies fa.1 fa.2 samples_per_group.toNat algorithm)
      files with
    | none => Except.error "unhandled exception"
    | some outs => Except.ok outs

/-- C3: a configured algorithm name that resolves to no known estimator makes
the run fail with a validation error that does not depend on the audio files:
the same error is produced for every file list, so no chunk of any signal is
ever processed and the extraction's per-call default is never exercised. -/
theorem claim_C3_unknown_algorithm_fails_fast (s : Settings)
    (h : (ALGORITHM_FUNCTIONS (cfgAlgorithm s.algorithm)).isNone = true) :
    ∃ e : String, ∀ files : List (List ℚ × ℚ), runMain s files = Except.error e := by
  by_cases hspg : (s.samples_per_group.getD 1024) < 2
  · refine ⟨"'samples_per_group' must be at least 2", fun files => ?_⟩
    unfold runMain
    rw [if_pos hspg]
  · refine ⟨"Unknown algorithm", fun files => ?_⟩
    unfold runMain
    rw [if_neg hspg, if_pos h]

/-- C3 witness: the spec's own name `spectral_peak` is not a key of the
script's dict, so a run configured with it fails identically on any inputs. -/
theorem claim_C3_unknown_algorithm_fails_fast_witness :
    ∃ e : String, ∀ files : List (List ℚ × ℚ),
      runMain ⟨none, some "spectral_peak"⟩ files = Except.error e :=
  claim_C3_unknown_algorithm_fails_fast ⟨none, some "spectral_peak"⟩ rfl

/-- C9 counterexample: the script recognizes neither `spectral_peak` (it is
not a key of `ALGORITHM_FUNCTIONS`) nor is it the default: an absent
`algorithm` key resolves to `fft`. -/
theorem claim_C9_names_counterexample :
    ALGORITHM_FUNCTIONS "spectral_peak" = none ∧ cfgAlgorithm none ≠ "spectral_peak" := by
  constructor
  · rfl
  · have hd : cfgAlgorithm none = "fft" := rfl
    rw [hd]
    decide

theorem ALGORITHM_FUNCTIONS_isSome_iff (t : String) :
    (ALGORITHM_FUNCTIONS t).isSome = true ↔
      t ∈ ["fft", "autocorrelation", "zcr", "cepstrum"] := by
  unfold ALGORITHM_FUNCTIONS
  split_ifs with h1 h2 h3 h4 <;> simp_all

/-- C9 (amended): the recognized algorithm names are exactly
`fft | autocorrelation | zcr | cepstrum`, matched case-insensitively (the
configured name is lowercased before lookup); an absent `algorithm` key
defaults to `fft`; and each name resolves to its estimator. -/
theorem claim_C9_algorithm_names_amended :
    (∀ s : String, (ALGORITHM_FUNCTIONS (cfgAlgorithm (some s))).isSome = true ↔
      strLower s ∈ ["fft", "autocorrelation", "zcr", "cepstrum"]) ∧
    cfgAlgorithm none = "fft" ∧
    ALGORITHM_FUNCTIONS "fft" = some dominant_frequency_fft ∧
    ALGORITHM_FUNCTIONS "autocorrelation" = some dominant_frequency_autocorrelation ∧
    ALGORITHM_FUNCTIONS "zcr" = some dominant_frequency_zcr ∧
    ALGORITHM_FUNCTIONS "cepstrum" = some dominant_frequency_cepstrum := by
  refine ⟨?_, rfl, rfl, rfl, rfl, rfl⟩
  intro s
  exact ALGORITHM_FUNCTIONS_isSome_iff (strLower s)
